import Mathlib

/-!
A fixed-size chained hash table (`hash_table.c`)

Shallow embedding of the C program: `hash`, `ht_pair`, `ht_create`, `ht_set`,
`ht_get`, `ht_del` and `ht_dump`, followed by the properties proved about them.

Modelling conventions.

* A C string is the list of its bytes before the terminating NUL, so every
  byte lies in `1..255`; `strcmp(a, b) == 0` is equality of these lists and
  `strcpy` into a fresh buffer is the identity on them.
* A bucket chain (`entry_t` nodes linked through `next`) is the list of its
  nodes from the head on; a `NULL` head is the empty list.  Every node is
  freshly allocated by `ht_pair` and owned by exactly one link, so chains never
  share nodes.  `malloc` is taken to succeed.
* A string argument is passed by pointer.  Where it points matters in one place
  only: on its update path `ht_set` frees the stored value of the matched node
  and reads `value` afterwards, so a `value` that is the pointer `ht_get`
  returned for the same key is read after it was freed.  `ht_set_call` takes
  the `value` argument with its provenance and has no result in that case;
  `ht_set` is the same call for a `value` that lives outside the freed
  storage, and the two agree there (`ht_set_call_own`, `ht_set_call_stored_other`).
  A `key` argument is never read after a `free`, in `ht_set` and in `ht_del`.
* `unsigned long` is 64 bits and `unsigned int` is 32 bits wide.  Whether plain
  `char` is signed is left to the target and is a parameter (`signed_char`) of
  `hash` and of everything that calls it.
-/

namespace HashTable

/-- The macro `TABLE_SIZE`. -/
def TABLE_SIZE : Nat := 3

/-- Number of values of `unsigned long`. -/
def ULONG_MOD : Nat := 2 ^ 64

/-- Number of values of `unsigned int`. -/
def UINT_MOD : Nat := 2 ^ 32

/-- A NUL-terminated C string: its bytes before the terminator, none of them NUL. -/
structure CString where
  bytes : List Nat
  wf : ∀ b ∈ bytes, 1 ≤ b ∧ b ≤ 255

instance : DecidableEq CString := fun a b =>
  decidable_of_iff (a.bytes = b.bytes) (by cases a; cases b; simp)

/-- The struct `entry_t` without its `next` link, which the chain list carries. -/
structure entry_t where
  key : CString
  value : CString
deriving DecidableEq

/-- The struct `ht_t`: the array `entries` of `TABLE_SIZE` chain heads. -/
structure ht_t where
  entries : Fin TABLE_SIZE → List entry_t

/-- The value of `key[i]` after conversion to `unsigned long`: a byte above 127
is negative when `char` is signed and then wraps to `2^64 - 256 + b`. -/
def char_to_ulong (signed_char : Bool) (b : Nat) : Nat :=
  if signed_char && decide (128 ≤ b) then ULONG_MOD - 256 + b else b

/-- The loop body of `hash`: `value = value * 37 + key[i]` in `unsigned long`. -/
def hash_step (signed_char : Bool) (value b : Nat) : Nat :=
  (value * 37 + char_to_ulong signed_char b) % ULONG_MOD

/-- The function `hash`: `key_len` is `strlen(key)` narrowed to `unsigned int`, the loop
runs over the first `key_len` bytes, and the result is reduced modulo `TABLE_SIZE`. -/
def hash (signed_char : Bool) (key : CString) : Nat :=
  let key_len := key.bytes.length % UINT_MOD
  let value := (key.bytes.take key_len).foldl (hash_step signed_char) 0
  (value % TABLE_SIZE) % UINT_MOD

/-- The function `ht_pair`: a fresh node holding copies of `key` and `value`. -/
def ht_pair (key value : CString) : entry_t :=
  { key := key, value := value }

/-- The function `ht_create`: every slot is `NULL`. -/
def ht_create : ht_t :=
  { entries := fun _ => [] }

/-- The slot computed by `hash`, as an index into `entries`. -/
def slot_of (signed_char : Bool) (key : CString) : Fin TABLE_SIZE :=
  ⟨hash signed_char key, by
    unfold hash
    exact lt_of_le_of_lt (Nat.mod_le _ _) (Nat.mod_lt _ (by decide))⟩

/-- The assignment `hashtable->entries[slot] = chain`. -/
def set_slot (t : ht_t) (slot : Fin TABLE_SIZE) (chain : List entry_t) : ht_t :=
  { entries := fun i => if i = slot then chain else t.entries i }

/-- The `while` loop of `ht_set` from `entry` on, for a `value` argument that does not
point into the stored value the loop frees: the chain that hangs off the link leading to
`entry` once the loop has finished.  A match gets its value replaced; the end of the chain
gets `prev->next = ht_pair(key, value)`.  The loop for a `value` of any provenance is
`ht_set_call_loop`. -/
def ht_set_loop (key value : CString) : List entry_t → List entry_t
  | [] => [ht_pair key value]
  | entry :: next =>
    if entry.key = key then { entry with value := value } :: next
    else entry :: ht_set_loop key value next

/-- The function `ht_set`, for a `value` argument that does not point into the stored value
the call frees (a string of the caller, or the stored value of another key).  The call for
a `value` of any provenance is `ht_set_call`. -/
def ht_set (signed_char : Bool) (t : ht_t) (key value : CString) : ht_t :=
  let slot := slot_of signed_char key
  match t.entries slot with
  | [] => set_slot t slot [ht_pair key value]
  | entry :: next => set_slot t slot (ht_set_loop key value (entry :: next))

/-- The `while` loop of `ht_get` from `entry` on; `none` is the `NULL` result. -/
def ht_get_loop (key : CString) : List entry_t → Option CString
  | [] => none
  | entry :: next => if entry.key = key then some entry.value else ht_get_loop key next

/-- The function `ht_get`. -/
def ht_get (signed_char : Bool) (t : ht_t) (key : CString) : Option CString :=
  match t.entries (slot_of signed_char key) with
  | [] => none
  | entry :: next => ht_get_loop key (entry :: next)

/-- The `while` loop of `ht_del` from `entry` on, with the loop counter `idx`: the
chain that hangs off the link leading to `entry` (the slot itself when `idx = 0`,
`prev->next` otherwise) once the loop has finished.  The four branches are the
four cases of the source.  The counter is a C `int`; it only overflows, which C
leaves undefined, on a chain of more than `2^31 - 1` nodes, and is kept unbounded. -/
def ht_del_loop (key : CString) : Nat → List entry_t → List entry_t
  | _, [] => []
  | idx, entry :: next =>
    if entry.key = key then
      if next = [] ∧ idx = 0 then []
      else if next ≠ [] ∧ idx = 0 then next
      else if next = [] ∧ idx ≠ 0 then []
      else next
    else entry :: ht_del_loop key (idx + 1) next

/-- The function `ht_del`. -/
def ht_del (signed_char : Bool) (t : ht_t) (key : CString) : ht_t :=
  let bucket := slot_of signed_char key
  match t.entries bucket with
  | [] => t
  | entry :: next => set_slot t bucket (ht_del_loop key 0 (entry :: next))

/-- The inner `for (;;)` of `ht_dump` started at the node `entry` whose successors
are `next`: the `key=value` items it prints. -/
def ht_dump_chain (entry : entry_t) : List entry_t → List (CString × CString)
  | [] => [(entry.key, entry.value)]
  | e :: next => (entry.key, entry.value) :: ht_dump_chain e next

/-- One iteration of the outer loop of `ht_dump`: nothing for an empty slot,
otherwise one line made of the slot number and the items of its chain. -/
def ht_dump_slot (t : ht_t) (i : Fin TABLE_SIZE) : List (Nat × List (CString × CString)) :=
  match t.entries i with
  | [] => []
  | entry :: next => [(i.val, ht_dump_chain entry next)]

/-- The function `ht_dump`: the printed lines, as slot number and items, in slot order. -/
def ht_dump (t : ht_t) : List (Nat × List (CString × CString)) :=
  (List.finRange TABLE_SIZE).flatMap (ht_dump_slot t)

/-- The `key=value` items of `ht_dump` in the order printed, without the slot labels. -/
def dump_pairs (t : ht_t) : List (CString × CString) :=
  (ht_dump t).flatMap (fun line => line.2)

/-- Total number of nodes over all buckets. -/
def entry_count (t : ht_t) : Nat :=
  ((List.finRange TABLE_SIZE).map (fun i => (t.entries i).length)).sum

/-- Tables obtained from `ht_create` by finitely many `ht_set` and `ht_del` calls. -/
inductive Reachable (signed_char : Bool) : ht_t → Prop
  | create : Reachable signed_char ht_create
  | set (t : ht_t) (key value : CString) :
      Reachable signed_char t → Reachable signed_char (ht_set signed_char t key value)
  | del (t : ht_t) (key : CString) :
      Reachable signed_char t → Reachable signed_char (ht_del signed_char t key)

/-- No bucket chain holds two nodes with equal keys. -/
def UniqueKeys (t : ht_t) : Prop :=
  ∀ i : Fin TABLE_SIZE, ((t.entries i).map (fun e => e.key)).Nodup

/-- Every node sits in the bucket its key hashes to. -/
def WellPlaced (signed_char : Bool) (t : ht_t) : Prop :=
  ∀ i : Fin TABLE_SIZE, ∀ e ∈ t.entries i, slot_of signed_char e.key = i

/-- Where the `value` argument of a call `ht_set(hashtable, key, value)` points: at a
string `s` in storage the table does not own, or at the stored value of key `k`, being the
pointer that `ht_get(hashtable, k)` returns on the table as it is before the call. -/
inductive value_arg where
  | own (s : CString) : value_arg
  | stored (k : CString) : value_arg

/-- The string a `value` argument holds when the call starts; `none` for the `NULL` that
`ht_get` returns for an absent key. -/
def arg_string (signed_char : Bool) (t : ht_t) : value_arg → Option CString
  | value_arg.own s => some s
  | value_arg.stored k => ht_get signed_char t k

/-- Whether `value` points at the stored value of the node that the loop of `ht_set`
matches for `key`.  The pointer `ht_get(hashtable, k)` is the `value` field of the first
node with key `k` in the chain of slot `hash(k)`, and the loop matches the first node with
key `key` in the chain of slot `hash(key)`: the same node exactly when `k = key`. -/
def points_at_match (key : CString) : value_arg → Bool
  | value_arg.own _ => false
  | value_arg.stored k => decide (k = key)

/-- The `while` loop of `ht_set` from `entry` on, for a `value` argument of any provenance
holding the string `content`; `none` when the loop reads freed storage, which C leaves
undefined.  On a match the source runs `free(entry->value)` first and `strlen(value)`,
`strcpy(entry->value, value)` after it, so a `value` that points at `entry->value` is read
after the `free`. -/
def ht_set_call_loop (key : CString) (value : value_arg) (content : CString) :
    List entry_t → Option (List entry_t)
  | [] => some [ht_pair key content]
  | entry :: next =>
    if entry.key = key then
      if points_at_match key value then none
      else some ({ entry with value := content } :: next)
    else (ht_set_call_loop key value content next).map (fun chain => entry :: chain)

/-- The function `ht_set` for a `value` argument of any provenance; `none` when the call
has no defined result: `value` is `NULL`, or it is read after the `free` of the update
path. -/
def ht_set_call (signed_char : Bool) (t : ht_t) (key : CString) (value : value_arg) :
    Option ht_t :=
  match arg_string signed_char t value with
  | none => none
  | some content =>
    let slot := slot_of signed_char key
    match t.entries slot with
    | [] => some (set_slot t slot [ht_pair key content])
    | entry :: next =>
      (ht_set_call_loop key value content (entry :: next)).map (set_slot t slot)

/-- The calls `ht_set(t, k, v)` for the pairs `(k, v)` of a list, in the order of the list. -/
def ht_set_all (signed_char : Bool) (t : ht_t) (kvs : List (CString × CString)) : ht_t :=
  kvs.foldl (fun u p => ht_set signed_char u p.1 p.2) t

/-- One step of the reference hash in the words of the specification:
`accumulator := (accumulator * 37 + byte_value) mod 2^64`, the byte taken in `0..255`. -/
def ref_step (acc b : Nat) : Nat :=
  (acc * 37 + b) % 2 ^ 64

/-- The reference hash in the words of the specification: start from accumulator 0, apply
`ref_step` to each byte of the key in order, reduce the final accumulator modulo 3. -/
def hash_ref (key : CString) : Nat :=
  (key.bytes.foldl ref_step 0) % 3

/-- Repeated doubling for the reference hash of a run of equal bytes: the pair of
`37^(2^k) mod 2^64` and the accumulator after `2^k` bytes `b`. -/
def ref_doubling (b : Nat) : Nat → Nat × Nat
  | 0 => (37 % 2 ^ 64, b % 2 ^ 64)
  | k + 1 =>
    ((ref_doubling b k).1 * (ref_doubling b k).1 % 2 ^ 64,
      (ref_doubling b k).2 * ((ref_doubling b k).1 + 1) % 2 ^ 64)

/-- The string `""`. -/
def str_empty : CString := ⟨[], by decide⟩

/-- The string `"a"`. -/
def str_a : CString := ⟨[97], by decide⟩

/-- The string `"d"`. -/
def str_d : CString := ⟨[100], by decide⟩

/-- The string `"b"`. -/
def str_b : CString := ⟨[98], by decide⟩

/-- The string `"1"`. -/
def str_1 : CString := ⟨[49], by decide⟩

/-- The string `"2"`. -/
def str_2 : CString := ⟨[50], by decide⟩

/-- The two-byte string `"\x80\x80"`. -/
def str_high : CString := ⟨[128, 128], by decide⟩

/-- The string of `2^32` bytes `'b'`. -/
def str_long : CString :=
  ⟨List.replicate (2 ^ 32) 98, fun b hb => by rw [List.eq_of_mem_replicate hb]; decide⟩

/-- The string `"g"`. -/
def str_g : CString := ⟨[103], by decide⟩

/-- The string `"name1"`. -/
def str_name1 : CString := ⟨[110, 97, 109, 101, 49], by decide⟩

/-- The string `"name2"`. -/
def str_name2 : CString := ⟨[110, 97, 109, 101, 50], by decide⟩

/-- The string `"name3"`. -/
def str_name3 : CString := ⟨[110, 97, 109, 101, 51], by decide⟩

/-- The string `"em"`. -/
def str_em : CString := ⟨[101, 109], by decide⟩

/-- The string `"lmao"`. -/
def str_lmao : CString := ⟨[108, 109, 97, 111], by decide⟩

/-- The string `"pizza"`. -/
def str_pizza : CString := ⟨[112, 105, 122, 122, 97], by decide⟩

/-- Erasing the first match from a chain, in the words of the specification: the chain
with its first node whose key equals `key` removed, every other node kept in place; the
chain itself when no node matches. -/
def erase_first_match (key : CString) : List entry_t → List entry_t
  | [] => []
  | e :: rest => if e.key = key then rest else e :: erase_first_match key rest

/-- The accumulator of `hash` computed in unbounded integers: `value * 37 + byte` for
each byte in order, with no reduction modulo `2^64`. -/
def hash_unbounded (l : List Nat) (value : Nat) : Nat :=
  l.foldl (fun v b => v * 37 + b) value

end HashTable

namespace HashTable

/-! ## Reading and writing one slot -/

theorem set_slot_same (t : ht_t) (slot : Fin TABLE_SIZE) (chain : List entry_t) :
    (set_slot t slot chain).entries slot = chain := by
  simp [set_slot]

theorem set_slot_other (t : ht_t) (slot i : Fin TABLE_SIZE) (chain : List entry_t)
    (h : i ≠ slot) : (set_slot t slot chain).entries i = t.entries i := by
  simp [set_slot, h]

theorem ht_t_ext (t u : ht_t) (h : ∀ i, t.entries i = u.entries i) : t = u := by
  cases t; cases u
  congr
  funext i
  exact h i

theorem ht_get_eq_loop (sg : Bool) (t : ht_t) (key : CString) :
    ht_get sg t key = ht_get_loop key (t.entries (slot_of sg key)) := by
  unfold ht_get
  split <;> rename_i h <;> simp [h, ht_get_loop]

theorem ht_set_eq_loop (sg : Bool) (t : ht_t) (key value : CString) :
    ht_set sg t key value =
      set_slot t (slot_of sg key) (ht_set_loop key value (t.entries (slot_of sg key))) := by
  unfold ht_set
  simp only []
  split <;> rename_i h <;> simp [h, ht_set_loop]

theorem ht_del_eq_loop (sg : Bool) (t : ht_t) (key : CString) :
    ht_del sg t key =
      set_slot t (slot_of sg key) (ht_del_loop key 0 (t.entries (slot_of sg key))) := by
  unfold ht_del
  simp only []
  split <;> rename_i h
  · apply ht_t_ext
    intro i
    by_cases hi : i = slot_of sg key
    · subst hi; simp [set_slot, ht_del_loop, h]
    · simp [set_slot, hi]
  · simp [h]

theorem ht_set_entries_same (sg : Bool) (t : ht_t) (key value : CString) :
    (ht_set sg t key value).entries (slot_of sg key) =
      ht_set_loop key value (t.entries (slot_of sg key)) := by
  rw [ht_set_eq_loop, set_slot_same]

theorem ht_set_entries_other (sg : Bool) (t : ht_t) (key value : CString)
    (i : Fin TABLE_SIZE) (h : i ≠ slot_of sg key) :
    (ht_set sg t key value).entries i = t.entries i := by
  rw [ht_set_eq_loop, set_slot_other _ _ _ _ h]

theorem ht_del_entries_same (sg : Bool) (t : ht_t) (key : CString) :
    (ht_del sg t key).entries (slot_of sg key) =
      ht_del_loop key 0 (t.entries (slot_of sg key)) := by
  rw [ht_del_eq_loop, set_slot_same]

theorem ht_del_entries_other (sg : Bool) (t : ht_t) (key : CString)
    (i : Fin TABLE_SIZE) (h : i ≠ slot_of sg key) :
    (ht_del sg t key).entries i = t.entries i := by
  rw [ht_del_eq_loop, set_slot_other _ _ _ _ h]

/-! ## The chain loops -/

theorem ht_get_loop_set_loop (key value : CString) (chain : List entry_t) :
    ht_get_loop key (ht_set_loop key value chain) = some value := by
  induction chain with
  | nil => simp [ht_set_loop, ht_get_loop, ht_pair]
  | cons e c ih =>
    by_cases h : e.key = key
    · simp [ht_set_loop, ht_get_loop, h]
    · simp [ht_set_loop, ht_get_loop, h, ih]

theorem ht_get_loop_eq_none (key : CString) (chain : List entry_t) :
    ht_get_loop key chain = none ↔ ∀ e ∈ chain, e.key ≠ key := by
  induction chain with
  | nil => simp [ht_get_loop]
  | cons e c ih =>
    by_cases h : e.key = key
    · simp [ht_get_loop, h]
    · simp [ht_get_loop, h, ih]

theorem ht_set_loop_length_of_found (key value : CString) (chain : List entry_t)
    (h : ht_get_loop key chain ≠ none) :
    (ht_set_loop key value chain).length = chain.length := by
  induction chain with
  | nil => simp [ht_get_loop] at h
  | cons e c ih =>
    by_cases hk : e.key = key
    · simp [ht_set_loop, hk]
    · simp only [ht_get_loop, hk, if_false] at h
      simp [ht_set_loop, hk, ih h]

/-- The four cases of the delete loop all remove the first node whose key matches. -/
theorem ht_del_loop_eq_eraseP (key : CString) (idx : Nat) (chain : List entry_t) :
    ht_del_loop key idx chain = chain.eraseP (fun e => decide (e.key = key)) := by
  induction chain generalizing idx with
  | nil => simp [ht_del_loop]
  | cons e c ih =>
    by_cases h : e.key = key
    · cases c <;> by_cases hi : idx = 0 <;> simp [ht_del_loop, h, hi]
    · simp [ht_del_loop, h, ih]

theorem ht_del_loop_of_absent (key : CString) (idx : Nat) (chain : List entry_t)
    (h : ∀ e ∈ chain, e.key ≠ key) : ht_del_loop key idx chain = chain := by
  rw [ht_del_loop_eq_eraseP]
  apply List.eraseP_of_forall_not
  intro e he
  simpa using h e he

theorem ht_del_loop_sublist (key : CString) (idx : Nat) (chain : List entry_t) :
    (ht_del_loop key idx chain).Sublist chain := by
  rw [ht_del_loop_eq_eraseP]
  exact List.eraseP_sublist _

theorem ht_get_loop_del_loop (key : CString) (idx : Nat) (chain : List entry_t)
    (h : (chain.map (fun e => e.key)).Nodup) :
    ht_get_loop key (ht_del_loop key idx chain) = none := by
  induction chain generalizing idx with
  | nil => simp [ht_del_loop, ht_get_loop]
  | cons e c ih =>
    simp only [List.map_cons, List.nodup_cons, List.mem_map, not_exists, not_and] at h
    by_cases hk : e.key = key
    · have hc : ∀ x ∈ c, x.key ≠ key := fun x hx hxk => h.1 x hx (hxk.trans hk.symm)
      rw [ht_del_loop_eq_eraseP]
      simp only [List.eraseP_cons, hk, decide_True, if_true]
      exact (ht_get_loop_eq_none key c).2 hc
    · simp [ht_del_loop, ht_get_loop, hk, ih _ h.2]

theorem ht_set_loop_of_absent (key value : CString) (chain : List entry_t)
    (h : ∀ e ∈ chain, e.key ≠ key) :
    ht_set_loop key value chain = chain ++ [ht_pair key value] := by
  induction chain with
  | nil => simp [ht_set_loop]
  | cons e c ih =>
    have he : e.key ≠ key := h e (List.mem_cons_self _ _)
    have hc : ∀ x ∈ c, x.key ≠ key := fun x hx => h x (List.mem_cons_of_mem _ hx)
    simp [ht_set_loop, he, ih hc]

theorem ht_set_loop_mem (key value : CString) (chain : List entry_t) (x : entry_t)
    (h : x ∈ ht_set_loop key value chain) : x.key = key ∨ x ∈ chain := by
  induction chain with
  | nil =>
    simp only [ht_set_loop, List.mem_singleton] at h
    left; rw [h]; rfl
  | cons e c ih =>
    by_cases hk : e.key = key
    · simp only [ht_set_loop, hk, if_true, List.mem_cons] at h
      rcases h with h | h
      · left; rw [h]
      · right; exact List.mem_cons_of_mem _ h
    · simp only [ht_set_loop, hk, if_false, List.mem_cons] at h
      rcases h with h | h
      · right; rw [h]; exact List.mem_cons_self _ _
      · rcases ih h with h1 | h1
        · left; exact h1
        · right; exact List.mem_cons_of_mem _ h1

theorem ht_set_loop_nodup (key value : CString) (chain : List entry_t)
    (h : (chain.map (fun e => e.key)).Nodup) :
    ((ht_set_loop key value chain).map (fun e => e.key)).Nodup := by
  induction chain with
  | nil => simp [ht_set_loop]
  | cons e c ih =>
    simp only [List.map_cons, List.nodup_cons, List.mem_map, not_exists, not_and] at h
    by_cases hk : e.key = key
    · simp only [ht_set_loop, hk, if_true, List.map_cons, List.nodup_cons, List.mem_map,
        not_exists, not_and]
      exact ⟨fun x hx => hk ▸ h.1 x hx, h.2⟩
    · simp only [ht_set_loop, hk, if_false, List.map_cons, List.nodup_cons, List.mem_map,
        not_exists, not_and]
      refine ⟨fun x hx hxe => ?_, ih h.2⟩
      rcases ht_set_loop_mem key value c x hx with h1 | h1
      · exact hk (hxe.symm.trans h1)
      · exact h.1 x h1 hxe

theorem ht_del_loop_nodup (key : CString) (idx : Nat) (chain : List entry_t)
    (h : (chain.map (fun e => e.key)).Nodup) :
    ((ht_del_loop key idx chain).map (fun e => e.key)).Nodup :=
  List.Nodup.sublist ((ht_del_loop_sublist key idx chain).map _) h

/-! ## The two invariants -/

theorem unique_keys_create : UniqueKeys ht_create := by
  intro i
  simp [ht_create]

theorem unique_keys_set (sg : Bool) (t : ht_t) (key value : CString) (h : UniqueKeys t) :
    UniqueKeys (ht_set sg t key value) := by
  intro i
  by_cases hi : i = slot_of sg key
  · subst hi
    rw [ht_set_entries_same]
    exact ht_set_loop_nodup key value _ (h _)
  · rw [ht_set_entries_other sg t key value i hi]
    exact h i

theorem unique_keys_del (sg : Bool) (t : ht_t) (key : CString) (h : UniqueKeys t) :
    UniqueKeys (ht_del sg t key) := by
  intro i
  by_cases hi : i = slot_of sg key
  · subst hi
    rw [ht_del_entries_same]
    exact ht_del_loop_nodup key 0 _ (h _)
  · rw [ht_del_entries_other sg t key i hi]
    exact h i

theorem well_placed_create (sg : Bool) : WellPlaced sg ht_create := by
  intro i e he
  simp [ht_create] at he

theorem well_placed_set (sg : Bool) (t : ht_t) (key value : CString) (h : WellPlaced sg t) :
    WellPlaced sg (ht_set sg t key value) := by
  intro i e he
  by_cases hi : i = slot_of sg key
  · subst hi
    rw [ht_set_entries_same] at he
    rcases ht_set_loop_mem key value _ e he with h1 | h1
    · rw [h1]
    · exact h _ e h1
  · rw [ht_set_entries_other sg t key value i hi] at he
    exact h i e he

theorem well_placed_del (sg : Bool) (t : ht_t) (key : CString) (h : WellPlaced sg t) :
    WellPlaced sg (ht_del sg t key) := by
  intro i e he
  by_cases hi : i = slot_of sg key
  · subst hi
    rw [ht_del_entries_same] at he
    exact h _ e ((ht_del_loop_sublist key 0 _).subset he)
  · rw [ht_del_entries_other sg t key i hi] at he
    exact h i e he

theorem reachable_unique_keys (sg : Bool) (t : ht_t) (h : Reachable sg t) : UniqueKeys t := by
  induction h with
  | create => exact unique_keys_create
  | set t key value _ ih => exact unique_keys_set sg t key value ih
  | del t key _ ih => exact unique_keys_del sg t key ih

theorem reachable_well_placed (sg : Bool) (t : ht_t) (h : Reachable sg t) :
    WellPlaced sg t := by
  induction h with
  | create => exact well_placed_create sg
  | set t key value _ ih => exact well_placed_set sg t key value ih
  | del t key _ ih => exact well_placed_del sg t key ih

/-! ## What `ht_dump` prints -/

theorem ht_dump_chain_eq_map (e : entry_t) (c : List entry_t) :
    ht_dump_chain e c = (e :: c).map (fun x => (x.key, x.value)) := by
  induction c generalizing e with
  | nil => simp [ht_dump_chain]
  | cons x c ih => simp [ht_dump_chain, ih x]

theorem ht_dump_slot_pairs (t : ht_t) (i : Fin TABLE_SIZE) :
    (ht_dump_slot t i).flatMap (fun line => line.2) =
      (t.entries i).map (fun x => (x.key, x.value)) := by
  unfold ht_dump_slot
  split <;> rename_i h
  · simp [h]
  · rw [h, List.flatMap_singleton, ht_dump_chain_eq_map]

theorem dump_pairs_eq (t : ht_t) :
    dump_pairs t =
      (List.finRange TABLE_SIZE).flatMap
        (fun i => (t.entries i).map (fun x => (x.key, x.value))) := by
  unfold dump_pairs ht_dump
  rw [List.flatMap_assoc]
  congr 1
  funext i
  exact ht_dump_slot_pairs t i

theorem mem_dump_pairs (t : ht_t) (p : CString × CString) :
    p ∈ dump_pairs t ↔ ∃ i, ∃ e ∈ t.entries i, (e.key, e.value) = p := by
  rw [dump_pairs_eq]
  simp [List.mem_flatMap, List.mem_finRange]

theorem flatMap_eq_of_single {α β : Type} (l : List α) (f : α → List β) (s : α)
    (hs : s ∈ l) (hn : l.Nodup) (h : ∀ i ∈ l, i ≠ s → f i = []) : l.flatMap f = f s := by
  induction l with
  | nil => simp at hs
  | cons a l ih =>
    rw [List.nodup_cons] at hn
    rw [List.flatMap_cons]
    rcases List.mem_cons.1 hs with rfl | hs1
    · have : l.flatMap f = [] := by
        rw [List.flatMap_eq_nil_iff]
        intro x hx
        exact h x (List.mem_cons_of_mem _ hx) (fun hxs => hn.1 (hxs ▸ hx))
      rw [this, List.append_nil]
    · have ha : a ≠ s := fun has => hn.1 (has ▸ hs1)
      rw [h a (List.mem_cons_self _ _) ha, List.nil_append]
      exact ih hs1 hn.2 (fun i hi => h i (List.mem_cons_of_mem _ hi))

theorem filter_key_of_absent (key : CString) (chain : List entry_t)
    (h : ∀ e ∈ chain, e.key ≠ key) :
    (chain.map (fun x => (x.key, x.value))).filter (fun p => decide (p.1 = key)) = [] := by
  rw [List.filter_eq_nil_iff]
  intro p hp
  rcases List.mem_map.1 hp with ⟨e, he, rfl⟩
  simpa using h e he

theorem filter_key_set_loop (key value : CString) (chain : List entry_t)
    (h : (chain.map (fun e => e.key)).Nodup) :
    ((ht_set_loop key value chain).map (fun x => (x.key, x.value))).filter
      (fun p => decide (p.1 = key)) = [(key, value)] := by
  induction chain with
  | nil => simp [ht_set_loop, ht_pair]
  | cons e c ih =>
    simp only [List.map_cons, List.nodup_cons, List.mem_map, not_exists, not_and] at h
    by_cases hk : e.key = key
    · have hc : ∀ x ∈ c, x.key ≠ key := fun x hx hxk => h.1 x hx (hxk.trans hk.symm)
      simp only [ht_set_loop, hk, if_true, List.map_cons]
      rw [List.filter_cons_of_pos (by simp), filter_key_of_absent key c hc]
    · simp only [ht_set_loop, hk, if_false, List.map_cons]
      rw [List.filter_cons_of_neg (by simpa using hk)]
      exact ih h.2

theorem ht_get_loop_eq_some (key value : CString) (chain : List entry_t)
    (h : (chain.map (fun e => e.key)).Nodup) :
    ht_get_loop key chain = some value ↔ ∃ e ∈ chain, e.key = key ∧ e.value = value := by
  induction chain with
  | nil => simp [ht_get_loop]
  | cons e c ih =>
    simp only [List.map_cons, List.nodup_cons, List.mem_map, not_exists, not_and] at h
    by_cases hk : e.key = key
    · have hc : ∀ x ∈ c, x.key ≠ key := fun x hx hxk => h.1 x hx (hxk.trans hk.symm)
      simp only [ht_get_loop, hk, if_true, Option.some.injEq, List.mem_cons]
      constructor
      · intro hv; exact ⟨e, Or.inl rfl, hk, hv⟩
      · rintro ⟨x, hx | hx, hxk, hxv⟩
        · rw [← hx]; exact hxv
        · exact absurd hxk (hc x hx)
    · simp only [ht_get_loop, hk, if_false, List.mem_cons]
      rw [ih h.2]
      constructor
      · rintro ⟨x, hx, hxk, hxv⟩; exact ⟨x, Or.inr hx, hxk, hxv⟩
      · rintro ⟨x, hx | hx, hxk, hxv⟩
        · exact absurd (hx ▸ hxk) hk
        · exact ⟨x, hx, hxk, hxv⟩

theorem entry_count_congr (t u : ht_t)
    (h : ∀ i, (u.entries i).length = (t.entries i).length) : entry_count u = entry_count t := by
  unfold entry_count
  congr 1
  apply List.map_congr_left
  intro i _
  exact h i

/-! ## Lookup after a write -/

/-- For a `value` that does not point into the stored value the call frees: for every table,
key and value, `ht_get` of the key on the table produced by `ht_set` returns exactly the
value that was set and never `NULL`; this includes the empty string as value. -/
theorem ht_get_ht_set_same (sg : Bool) (t : ht_t) (k v : CString) :
    ht_get sg (ht_set sg t k v) k = some v ∧
      ht_get sg (ht_set sg t k str_empty) k = some str_empty := by
  constructor
  · rw [ht_get_eq_loop, ht_set_entries_same]
    exact ht_get_loop_set_loop k v _
  · rw [ht_get_eq_loop, ht_set_entries_same]
    exact ht_get_loop_set_loop k str_empty _

/-- C2: on every table reachable from `ht_create` by `ht_set` and `ht_del` calls, and for
every key, present or not, `ht_get` of the key after `ht_del` of the key returns `NULL`. -/
theorem ht_get_ht_del_same (sg : Bool) (t : ht_t) (k : CString) (h : Reachable sg t) :
    ht_get sg (ht_del sg t k) k = none := by
  rw [ht_get_eq_loop, ht_del_entries_same]
  exact ht_get_loop_del_loop k 0 _ (reachable_unique_keys sg t h _)

theorem ht_get_ht_del_same_witness :
    Reachable true (ht_set true (ht_set true ht_create str_a str_1) str_d str_2) ∧
      ht_get true
        (ht_del true (ht_set true (ht_set true ht_create str_a str_1) str_d str_2) str_d)
        str_d = none :=
  ⟨Reachable.set _ _ _ (Reachable.set _ _ _ Reachable.create),
    ht_get_ht_del_same true _ str_d (Reachable.set _ _ _ (Reachable.set _ _ _ Reachable.create))⟩

/-- For a `value` that does not point into the stored value the call frees: when `ht_get`
finds the key in a table, `ht_set` of that key with a new value makes `ht_get` return the
new value and leaves the total number of nodes over all buckets as it was. -/
theorem ht_set_existing_key (sg : Bool) (t : ht_t) (k v2 : CString)
    (h : ∃ v, ht_get sg t k = some v) :
    ht_get sg (ht_set sg t k v2) k = some v2 ∧
      entry_count (ht_set sg t k v2) = entry_count t := by
  constructor
  · rw [ht_get_eq_loop, ht_set_entries_same]
    exact ht_get_loop_set_loop k v2 _
  · apply entry_count_congr
    intro i
    by_cases hi : i = slot_of sg k
    · subst hi
      rw [ht_set_entries_same]
      apply ht_set_loop_length_of_found
      rcases h with ⟨v, hv⟩
      rw [ht_get_eq_loop] at hv
      rw [hv]
      exact Option.some_ne_none v
    · rw [ht_set_entries_other sg t k v2 i hi]

theorem ht_set_existing_key_witness :
    (∃ v, ht_get true (ht_set true (ht_set true ht_create str_a str_1) str_d str_2) str_d
        = some v) ∧
      ht_get true
        (ht_set true (ht_set true (ht_set true ht_create str_a str_1) str_d str_2) str_d str_1)
        str_d = some str_1 ∧
      entry_count
        (ht_set true (ht_set true (ht_set true ht_create str_a str_1) str_d str_2) str_d str_1)
        = entry_count (ht_set true (ht_set true ht_create str_a str_1) str_d str_2) :=
  ⟨⟨str_2, by decide⟩,
    ht_set_existing_key true _ str_d str_1 ⟨str_2, by decide⟩⟩

/-- For a `value` that does not point into the stored value the call frees: on every
reachable table, after `ht_set` of a key and a value the items printed by `ht_dump`
contain exactly one item with that key, and its value is the value set. -/
theorem ht_dump_after_ht_set (sg : Bool) (t : ht_t) (k v : CString) (h : Reachable sg t) :
    (dump_pairs (ht_set sg t k v)).filter (fun p => decide (p.1 = k)) = [(k, v)] := by
  rw [dump_pairs_eq, List.filter_flatMap]
  rw [flatMap_eq_of_single (List.finRange TABLE_SIZE) _ (slot_of sg k) (List.mem_finRange _)
    (List.nodup_finRange _)]
  · rw [ht_set_entries_same]
    exact filter_key_set_loop k v _ (reachable_unique_keys sg t h _)
  · intro i _ hi
    rw [ht_set_entries_other sg t k v i hi]
    apply filter_key_of_absent
    intro e he hek
    exact hi ((reachable_well_placed sg t h i e he).symm.trans (by rw [hek]))

theorem ht_dump_after_ht_set_witness :
    Reachable true (ht_set true (ht_set true ht_create str_a str_1) str_d str_2) ∧
      (dump_pairs
        (ht_set true (ht_set true (ht_set true ht_create str_a str_1) str_d str_2)
          str_a str_2)).filter (fun p => decide (p.1 = str_a)) = [(str_a, str_2)] :=
  ⟨Reachable.set _ _ _ (Reachable.set _ _ _ Reachable.create),
    ht_dump_after_ht_set true _ str_a str_2
      (Reachable.set _ _ _ (Reachable.set _ _ _ Reachable.create))⟩

/-- C5: key uniqueness is an invariant: it holds for the table of `ht_create`, every
`ht_set` and every `ht_del` preserves it, and so no bucket chain of a reachable table
holds two nodes with equal keys. -/
theorem unique_keys_invariant (sg : Bool) :
    UniqueKeys ht_create ∧
      (∀ t k v, UniqueKeys t → UniqueKeys (ht_set sg t k v)) ∧
      (∀ t k, UniqueKeys t → UniqueKeys (ht_del sg t k)) ∧
      (∀ t, Reachable sg t → UniqueKeys t) :=
  ⟨unique_keys_create, unique_keys_set sg, unique_keys_del sg, reachable_unique_keys sg⟩

theorem unique_keys_invariant_witness :
    Reachable true (ht_del true (ht_set true (ht_set true ht_create str_a str_1) str_d str_2)
        str_a) ∧
      UniqueKeys (ht_del true (ht_set true (ht_set true ht_create str_a str_1) str_d str_2)
        str_a) :=
  ⟨Reachable.del _ _ (Reachable.set _ _ _ (Reachable.set _ _ _ Reachable.create)),
    (unique_keys_invariant true).2.2.2 _
      (Reachable.del _ _ (Reachable.set _ _ _ (Reachable.set _ _ _ Reachable.create)))⟩

/-- C6: on every reachable table and for every key, `ht_get` returns a value `v` exactly
when the item `(key, v)` is among those printed by `ht_dump`, and returns `NULL` exactly
when no printed item, of any bucket, has that key. -/
theorem ht_get_iff_ht_dump (sg : Bool) (t : ht_t) (k : CString) (h : Reachable sg t) :
    (∀ v, ht_get sg t k = some v ↔ (k, v) ∈ dump_pairs t) ∧
      (ht_get sg t k = none ↔ ∀ p ∈ dump_pairs t, p.1 ≠ k) := by
  have hu := reachable_unique_keys sg t h
  have hw := reachable_well_placed sg t h
  constructor
  · intro v
    rw [ht_get_eq_loop, ht_get_loop_eq_some k v _ (hu _), mem_dump_pairs]
    constructor
    · rintro ⟨e, he, hek, hev⟩
      exact ⟨slot_of sg k, e, he, by rw [hek, hev]⟩
    · rintro ⟨i, e, he, hp⟩
      have hek : e.key = k := congrArg Prod.fst hp
      have hev : e.value = v := congrArg Prod.snd hp
      have hi : slot_of sg k = i := by rw [← hek]; exact hw i e he
      rw [hi]
      exact ⟨e, he, hek, hev⟩
  · rw [ht_get_eq_loop, ht_get_loop_eq_none]
    constructor
    · intro hn p hp hpk
      rcases (mem_dump_pairs t p).1 hp with ⟨i, e, he, rfl⟩
      have hek : e.key = k := hpk
      have hi : slot_of sg k = i := by rw [← hek]; exact hw i e he
      rw [← hi] at he
      exact hn e he hek
    · intro hn e he hek
      exact hn (e.key, e.value) ((mem_dump_pairs t _).2 ⟨_, e, he, rfl⟩) hek

theorem ht_get_iff_ht_dump_witness :
    Reachable true (ht_set true (ht_set true ht_create str_a str_1) str_d str_2) ∧
      ((∀ v, ht_get true (ht_set true (ht_set true ht_create str_a str_1) str_d str_2) str_d
          = some v ↔
          (str_d, v) ∈ dump_pairs (ht_set true (ht_set true ht_create str_a str_1) str_d str_2)) ∧
        (ht_get true (ht_set true (ht_set true ht_create str_a str_1) str_d str_2) str_d
          = none ↔
          ∀ p ∈ dump_pairs (ht_set true (ht_set true ht_create str_a str_1) str_d str_2),
            p.1 ≠ str_d)) :=
  ⟨Reachable.set _ _ _ (Reachable.set _ _ _ Reachable.create),
    ht_get_iff_ht_dump true _ str_d (Reachable.set _ _ _ (Reachable.set _ _ _ Reachable.create))⟩

/-- C7: when `ht_get` does not find the key, `ht_del` of that key leaves every bucket chain
as it was, so `ht_dump` prints the same lines (same items, same slots, same order). -/
theorem ht_del_absent_key (sg : Bool) (t : ht_t) (k : CString) (h : ht_get sg t k = none) :
    (∀ i, (ht_del sg t k).entries i = t.entries i) ∧ ht_dump (ht_del sg t k) = ht_dump t := by
  have he : ht_del sg t k = t := by
    apply ht_t_ext
    intro i
    by_cases hi : i = slot_of sg k
    · subst hi
      rw [ht_del_entries_same]
      apply ht_del_loop_of_absent
      rw [ht_get_eq_loop] at h
      exact (ht_get_loop_eq_none k _).1 h
    · exact ht_del_entries_other sg t k i hi
  rw [he]
  exact ⟨fun _ => rfl, rfl⟩

theorem ht_del_absent_key_witness :
    ht_get true (ht_set true (ht_set true ht_create str_a str_1) str_b str_2) str_d = none ∧
      ((∀ i, (ht_del true (ht_set true (ht_set true ht_create str_a str_1) str_b str_2)
          str_d).entries i
          = (ht_set true (ht_set true ht_create str_a str_1) str_b str_2).entries i) ∧
        ht_dump (ht_del true (ht_set true (ht_set true ht_create str_a str_1) str_b str_2) str_d)
          = ht_dump (ht_set true (ht_set true ht_create str_a str_1) str_b str_2)) :=
  ⟨by decide, ht_del_absent_key true _ str_d (by decide)⟩

/-! ## The dump after a run of inserts -/

theorem ht_set_all_append (sg : Bool) (t : ht_t) (kvs : List (CString × CString))
    (p : CString × CString) :
    ht_set_all sg t (kvs ++ [p]) = ht_set sg (ht_set_all sg t kvs) p.1 p.2 := by
  simp [ht_set_all, List.foldl_append]

theorem ht_set_all_entries (sg : Bool) (kvs : List (CString × CString))
    (h : (kvs.map Prod.fst).Nodup) (i : Fin TABLE_SIZE) :
    (ht_set_all sg ht_create kvs).entries i =
      (kvs.filter (fun p => decide (slot_of sg p.1 = i))).map (fun p => ht_pair p.1 p.2) := by
  induction kvs using List.reverseRecOn with
  | nil => simp [ht_set_all, ht_create]
  | append_singleton l p ih =>
    have hl : (l.map Prod.fst).Nodup := by
      rw [List.map_append] at h
      exact (List.nodup_append.1 h).1
    have hp : ∀ q ∈ l, q.1 ≠ p.1 := by
      intro q hq hqp
      rw [List.map_append] at h
      have hd := (List.nodup_append.1 h).2.2
      exact hd (List.mem_map_of_mem Prod.fst hq) (by simp [hqp])
    rw [ht_set_all_append, List.filter_append, List.map_append]
    by_cases hi : i = slot_of sg p.1
    · subst hi
      rw [ht_set_entries_same, ih hl, ht_set_loop_of_absent]
      · simp
      · intro e he
        rcases List.mem_map.1 he with ⟨q, hq, rfl⟩
        exact hp q (List.mem_filter.1 hq).1
    · rw [ht_set_entries_other sg _ p.1 p.2 i hi, ih hl]
      have : slot_of sg p.1 ≠ i := fun hh => hi hh.symm
      simp [this]

theorem filter_map_eq_flatMap {α β : Type} (g : α → β) (q : β → Bool) (l : List α) :
    (l.map g).filter q = l.flatMap (fun i => if q (g i) then [g i] else []) := by
  induction l with
  | nil => simp
  | cons a l ih =>
    rw [List.map_cons, List.flatMap_cons, ← ih]
    by_cases h : q (g a) = true
    · rw [List.filter_cons_of_pos h]; simp [h]
    · rw [List.filter_cons_of_neg h]; simp [h]

theorem flatMap_insert_perm {α β : Type} [DecidableEq α] (l : List α) (f : α → List β)
    (s : α) (b : β) (hs : s ∈ l) (hn : l.Nodup) :
    (l.flatMap (fun i => if s = i then b :: f i else f i)).Perm (b :: l.flatMap f) := by
  induction l with
  | nil => simp at hs
  | cons a l ih =>
    rw [List.nodup_cons] at hn
    rw [List.flatMap_cons, List.flatMap_cons]
    by_cases ha : s = a
    · subst ha
      have hrest : (l.flatMap (fun i => if s = i then b :: f i else f i)) = l.flatMap f := by
        apply List.flatMap_congr
        intro x hx
        have : s ≠ x := fun hsx => hn.1 (hsx ▸ hx)
        simp [this]
      rw [hrest]
      simp
    · have hs1 : s ∈ l := by
        rcases List.mem_cons.1 hs with h1 | h1
        · exact absurd h1 ha
        · exact h1
      simp only [ha, if_false]
      exact ((ih hs1 hn.2).append_left (f a)).trans List.perm_middle

theorem flatMap_filter_perm (sg : Bool) (kvs : List (CString × CString)) :
    ((List.finRange TABLE_SIZE).flatMap
      (fun i => kvs.filter (fun p => decide (slot_of sg p.1 = i)))).Perm kvs := by
  induction kvs with
  | nil => simp
  | cons p l ih =>
    have hrw : (fun i : Fin TABLE_SIZE =>
          (p :: l).filter (fun q => decide (slot_of sg q.1 = i))) =
        (fun i => if slot_of sg p.1 = i then p :: l.filter (fun q => decide (slot_of sg q.1 = i))
          else l.filter (fun q => decide (slot_of sg q.1 = i))) := by
      funext i
      by_cases hi : slot_of sg p.1 = i <;> simp [List.filter_cons, hi]
    rw [hrw]
    exact (flatMap_insert_perm _ _ (slot_of sg p.1) p (List.mem_finRange _)
      (List.nodup_finRange _)).trans (List.Perm.cons p ih)

theorem ht_dump_slot_eq (t : ht_t) (i : Fin TABLE_SIZE) :
    ht_dump_slot t i =
      if (t.entries i).isEmpty then []
      else [(i.val, (t.entries i).map (fun x => (x.key, x.value)))] := by
  unfold ht_dump_slot
  split <;> rename_i h
  · simp [h]
  · rw [h, ht_dump_chain_eq_map]; simp

theorem ht_dump_slot_ht_set_all (sg : Bool) (kvs : List (CString × CString))
    (h : (kvs.map Prod.fst).Nodup) (i : Fin TABLE_SIZE) :
    ht_dump_slot (ht_set_all sg ht_create kvs) i =
      if (!(kvs.filter (fun p => decide (hash sg p.1 = i.val))).isEmpty) = true
      then [(i.val, kvs.filter (fun p => decide (hash sg p.1 = i.val)))] else [] := by
  have hf : (fun p : CString × CString => decide (slot_of sg p.1 = i)) =
      (fun p => decide (hash sg p.1 = i.val)) := by
    funext p
    simp [slot_of, Fin.ext_iff]
  rw [ht_dump_slot_eq, ht_set_all_entries sg kvs h i, hf]
  cases hc : kvs.filter (fun p => decide (hash sg p.1 = i.val)) with
  | nil => simp
  | cons a l => simp [ht_pair, List.map_map, Function.comp_def]

/-- C8: after `ht_set` calls with pairwise distinct keys on the table of `ht_create`,
`ht_dump` prints one line for each non-empty slot, in slot order 0, 1, 2; the line of slot
`i` holds exactly the inserted pairs whose key hashes to `i`, in the order of insertion;
together the lines hold exactly the inserted pairs. -/
theorem ht_dump_of_distinct_inserts (sg : Bool) (kvs : List (CString × CString))
    (h : (kvs.map Prod.fst).Nodup) :
    ht_dump (ht_set_all sg ht_create kvs) =
        ((List.range TABLE_SIZE).map
          (fun i => (i, kvs.filter (fun p => decide (hash sg p.1 = i))))).filter
          (fun line => !line.2.isEmpty) ∧
      (dump_pairs (ht_set_all sg ht_create kvs)).Perm kvs := by
  constructor
  · rw [← List.map_coe_finRange, List.map_map, filter_map_eq_flatMap]
    unfold ht_dump
    apply List.flatMap_congr
    intro i _
    rw [ht_dump_slot_ht_set_all sg kvs h i]
    rfl
  · rw [dump_pairs_eq]
    have hrw : (fun i : Fin TABLE_SIZE =>
          ((ht_set_all sg ht_create kvs).entries i).map (fun x => (x.key, x.value))) =
        (fun i => kvs.filter (fun p => decide (slot_of sg p.1 = i))) := by
      funext i
      rw [ht_set_all_entries sg kvs h i]
      simp [ht_pair, List.map_map, Function.comp_def]
    rw [hrw]
    exact flatMap_filter_perm sg kvs

theorem ht_dump_of_distinct_inserts_witness :
    ([(str_d, str_1), (str_b, str_2), (str_a, str_empty)].map Prod.fst).Nodup ∧
      (ht_dump (ht_set_all true ht_create [(str_d, str_1), (str_b, str_2), (str_a, str_empty)]) =
          ((List.range TABLE_SIZE).map
            (fun i => (i, [(str_d, str_1), (str_b, str_2), (str_a, str_empty)].filter
              (fun p => decide (hash true p.1 = i))))).filter
            (fun line => !line.2.isEmpty) ∧
        (dump_pairs
          (ht_set_all true ht_create [(str_d, str_1), (str_b, str_2), (str_a, str_empty)])).Perm
          [(str_d, str_1), (str_b, str_2), (str_a, str_empty)]) :=
  ⟨by decide, ht_dump_of_distinct_inserts true _ (by decide)⟩

/-! ## The hash function -/

theorem char_to_ulong_of_small (sg : Bool) (b : Nat) (h : sg = false ∨ b ≤ 127) :
    char_to_ulong sg b = b := by
  unfold char_to_ulong
  rcases h with h | h
  · simp [h]
  · have : ¬ 128 ≤ b := by omega
    simp [this]

theorem hash_step_eq_ref_step (sg : Bool) (value b : Nat) (h : sg = false ∨ b ≤ 127) :
    hash_step sg value b = ref_step value b := by
  unfold hash_step ref_step
  rw [char_to_ulong_of_small sg b h]
  rfl

theorem foldl_hash_step_eq (sg : Bool) (l : List Nat) (a : Nat)
    (h : sg = false ∨ ∀ b ∈ l, b ≤ 127) :
    l.foldl (hash_step sg) a = l.foldl ref_step a := by
  induction l generalizing a with
  | nil => rfl
  | cons b l ih =>
    have hb : sg = false ∨ b ≤ 127 := h.imp id (fun hh => hh b (List.mem_cons_self _ _))
    have hl : sg = false ∨ ∀ x ∈ l, x ≤ 127 :=
      h.imp id (fun hh x hx => hh x (List.mem_cons_of_mem _ hx))
    rw [List.foldl_cons, List.foldl_cons, hash_step_eq_ref_step sg a b hb]
    exact ih _ hl

theorem ref_foldl_modEq (b : Nat) (n a : Nat) :
    Nat.ModEq (2 ^ 64) ((List.replicate n b).foldl ref_step a)
      (a * 37 ^ n + (List.replicate n b).foldl ref_step 0) := by
  induction n generalizing a with
  | zero => simp [Nat.ModEq]
  | succ n ih =>
    rw [List.replicate_succ, List.foldl_cons, List.foldl_cons]
    have h1 := ih (ref_step a b)
    have h2 := ih (ref_step 0 b)
    have ha : Nat.ModEq (2 ^ 64) (ref_step a b) (a * 37 + b) := Nat.mod_modEq _ _
    have h0 : Nat.ModEq (2 ^ 64) (ref_step 0 b) b := by
      unfold ref_step
      simpa using Nat.mod_modEq b (2 ^ 64)
    have h3 : Nat.ModEq (2 ^ 64) (ref_step a b * 37 ^ n + (List.replicate n b).foldl ref_step 0)
        ((a * 37 + b) * 37 ^ n + (List.replicate n b).foldl ref_step 0) :=
      (ha.mul_right _).add_right _
    have h4 : Nat.ModEq (2 ^ 64) ((List.replicate n b).foldl ref_step (ref_step 0 b))
        (b * 37 ^ n + (List.replicate n b).foldl ref_step 0) :=
      h2.trans ((h0.mul_right _).add_right _)
    have h5 : Nat.ModEq (2 ^ 64)
        (a * 37 ^ (n + 1) + (List.replicate n b).foldl ref_step (ref_step 0 b))
        (a * 37 ^ (n + 1) + (b * 37 ^ n + (List.replicate n b).foldl ref_step 0)) :=
      h4.add_left _
    refine (h1.trans h3).trans (Nat.ModEq.trans ?_ h5.symm)
    have : (a * 37 + b) * 37 ^ n + (List.replicate n b).foldl ref_step 0 =
        a * 37 ^ (n + 1) + (b * 37 ^ n + (List.replicate n b).foldl ref_step 0) := by ring
    rw [this]

theorem ref_foldl_lt (l : List Nat) (a : Nat) (h : a < 2 ^ 64) :
    l.foldl ref_step a < 2 ^ 64 := by
  induction l generalizing a with
  | nil => exact h
  | cons b l ih =>
    rw [List.foldl_cons]
    exact ih _ (Nat.mod_lt _ (by norm_num))

theorem ref_doubling_spec (b : Nat) (k : Nat) :
    (ref_doubling b k).1 = 37 ^ (2 ^ k) % 2 ^ 64 ∧
      (ref_doubling b k).2 = (List.replicate (2 ^ k) b).foldl ref_step 0 := by
  induction k with
  | zero => simp [ref_doubling, ref_step]
  | succ k ih =>
    obtain ⟨ih1, ih2⟩ := ih
    have hp : Nat.ModEq (2 ^ 64) (ref_doubling b k).1 (37 ^ (2 ^ k)) := by
      rw [ih1]; exact Nat.mod_modEq _ _
    constructor
    · show (ref_doubling b k).1 * (ref_doubling b k).1 % 2 ^ 64 = _
      have : 37 ^ (2 ^ (k + 1)) = 37 ^ (2 ^ k) * 37 ^ (2 ^ k) := by
        rw [← pow_add]; congr 1; ring
      rw [this]
      exact hp.mul hp
    · show (ref_doubling b k).2 * ((ref_doubling b k).1 + 1) % 2 ^ 64 = _
      have hsplit : List.replicate (2 ^ (k + 1)) b =
          List.replicate (2 ^ k) b ++ List.replicate (2 ^ k) b := by
        rw [← List.replicate_add]; congr 1; ring
      rw [hsplit, List.foldl_append, ← ih2]
      have hlt : (List.replicate (2 ^ k) b).foldl ref_step (ref_doubling b k).2 < 2 ^ 64 := by
        apply ref_foldl_lt
        rw [ih2]
        exact ref_foldl_lt _ 0 (by norm_num)
      rw [← Nat.mod_eq_of_lt hlt]
      have h1 := ref_foldl_modEq b (2 ^ k) (ref_doubling b k).2
      rw [← ih2] at h1
      refine Nat.ModEq.trans ?_ h1.symm
      have : (ref_doubling b k).2 * ((ref_doubling b k).1 + 1) =
          (ref_doubling b k).2 * (ref_doubling b k).1 + (ref_doubling b k).2 := by ring
      rw [this]
      exact (hp.mul_left _).add_right _

theorem str_long_bytes : str_long.bytes = List.replicate (2 ^ 32) 98 := rfl

theorem hash_unfold (sg : Bool) (key : CString) :
    hash sg key =
      ((key.bytes.take (key.bytes.length % UINT_MOD)).foldl (hash_step sg) 0) % TABLE_SIZE
        % UINT_MOD := rfl

theorem hash_str_long (sg : Bool) : hash sg str_long = 0 := by
  have hlen : str_long.bytes.length % UINT_MOD = 0 := by
    rw [str_long_bytes, List.length_replicate]
    exact Nat.mod_self _
  rw [hash_unfold, hlen, List.take_zero, List.foldl_nil]
  rfl

theorem hash_ref_of_run (key : CString) (b k : Nat)
    (h : key.bytes = List.replicate (2 ^ k) b) : hash_ref key = (ref_doubling b k).2 % 3 := by
  unfold hash_ref
  rw [h, (ref_doubling_spec b k).2]

theorem hash_ref_str_long : hash_ref str_long = 2 := by
  rw [hash_ref_of_run str_long 98 32 str_long_bytes]
  decide

/-- C9, as stated, fails on the code: with a signed `char` the key `"\x80\x80"` hashes to 0
while the reference gives 1, and a key of `2^32` bytes `'b'`, whose length narrows to 0,
hashes to 0 while the reference gives 2. -/
theorem hash_ne_hash_ref :
    hash true str_high ≠ hash_ref str_high ∧
      (∀ sg, hash sg str_long ≠ hash_ref str_long) := by
  constructor
  · decide
  · intro sg
    rw [hash_str_long, hash_ref_str_long]
    decide

/-- C9, amended: for every key of fewer than `2^32` bytes, `hash` equals the reference
(accumulator 0, `acc := (acc * 37 + byte) mod 2^64` for each byte in order, result
`acc mod 3`) when plain `char` is unsigned or every byte of the key is at most 127. -/
theorem hash_eq_hash_ref (sg : Bool) (key : CString) (hlen : key.bytes.length < 2 ^ 32)
    (hb : sg = false ∨ ∀ b ∈ key.bytes, b ≤ 127) : hash sg key = hash_ref key := by
  unfold hash hash_ref
  have h1 : key.bytes.length % UINT_MOD = key.bytes.length := Nat.mod_eq_of_lt hlen
  simp only [h1, List.take_length]
  rw [foldl_hash_step_eq sg key.bytes 0 hb]
  have h3 : List.foldl ref_step 0 key.bytes % 3 < UINT_MOD :=
    lt_trans (Nat.mod_lt _ (by norm_num)) (by norm_num [UINT_MOD])
  exact Nat.mod_eq_of_lt h3

theorem hash_eq_hash_ref_witness :
    str_d.bytes.length < 2 ^ 32 ∧ (true = false ∨ ∀ b ∈ str_d.bytes, b ≤ 127) ∧
      hash true str_d = hash_ref str_d :=
  ⟨by decide, Or.inr (by decide), hash_eq_hash_ref true str_d (by decide) (Or.inr (by decide))⟩

/-- C10: for every key `hash` is a valid bucket index, `0 <= hash(key) < TABLE_SIZE = 3`,
so the slot used by `ht_set`, `ht_get` and `ht_del` lies inside `entries`; the empty key
hashes to bucket 0. -/
theorem hash_in_bounds (sg : Bool) (key : CString) :
    (0 ≤ hash sg key ∧ hash sg key < TABLE_SIZE) ∧ TABLE_SIZE = 3 ∧
      (slot_of sg key).val = hash sg key ∧ hash sg str_empty = 0 := by
  refine ⟨⟨Nat.zero_le _, ?_⟩, rfl, rfl, ?_⟩
  · unfold hash
    exact lt_of_le_of_lt (Nat.mod_le _ _) (Nat.mod_lt _ (by decide))
  · cases sg <;> decide

/-! ## The fresh table, and delete after insert -/

theorem ht_dump_of_single_slot (t : ht_t) (s : Fin TABLE_SIZE)
    (h : ∀ i, i ≠ s → t.entries i = []) : ht_dump t = ht_dump_slot t s := by
  unfold ht_dump
  apply flatMap_eq_of_single _ _ s (List.mem_finRange _) (List.nodup_finRange _)
  intro i _ hi
  rw [ht_dump_slot_eq, h i hi]
  rfl

theorem ht_dump_of_empty (t : ht_t) (h : ∀ i, t.entries i = []) : ht_dump t = [] := by
  unfold ht_dump
  rw [List.flatMap_eq_nil_iff]
  intro i _
  rw [ht_dump_slot_eq, h i]
  rfl

theorem ht_del_loop_set_loop_of_absent (key value : CString) (chain : List entry_t)
    (h : ∀ e ∈ chain, e.key ≠ key) :
    ht_del_loop key 0 (ht_set_loop key value chain) = chain := by
  rw [ht_set_loop_of_absent key value chain h, ht_del_loop_eq_eraseP,
    List.eraseP_append_right _ (by intro b hb; simpa using h b hb)]
  simp [ht_pair]

theorem ht_del_ht_set_of_absent (sg : Bool) (t : ht_t) (k v : CString)
    (h : ht_get sg t k = none) : ht_del sg (ht_set sg t k v) k = t := by
  apply ht_t_ext
  intro i
  by_cases hi : i = slot_of sg k
  · subst hi
    rw [ht_del_entries_same, ht_set_entries_same]
    apply ht_del_loop_set_loop_of_absent
    rw [ht_get_eq_loop] at h
    exact (ht_get_loop_eq_none k _).1 h
  · rw [ht_del_entries_other sg _ k i hi, ht_set_entries_other sg t k v i hi]

/-- C11: the table of `ht_create` has `TABLE_SIZE = 3` slots, all of them empty: `ht_get`
returns `NULL` for every key and `ht_dump` prints nothing. -/
theorem ht_create_empty (sg : Bool) :
    TABLE_SIZE = 3 ∧ (∀ i : Fin TABLE_SIZE, ht_create.entries i = []) ∧
      (∀ k, ht_get sg ht_create k = none) ∧ ht_dump ht_create = [] ∧
      dump_pairs ht_create = [] := by
  refine ⟨rfl, fun _ => rfl, fun k => ?_, ?_, ?_⟩
  · rw [ht_get_eq_loop]
    rfl
  · exact ht_dump_of_empty ht_create (fun _ => rfl)
  · unfold dump_pairs
    rw [ht_dump_of_empty ht_create (fun _ => rfl)]
    rfl

/-- C12: insert then delete is a round trip: when `ht_get` does not find `k` in `t`, the
table after `ht_set(t, k, v)` and `ht_del(k)` has the chains of `t` in every slot, hence
the `ht_dump` of `t`, and `ht_get` of `k` on it returns `NULL`.  On the table of
`ht_create`, setting `("a", "1")` and deleting `"a"` leaves `ht_get("a")` at `NULL` and an
empty dump. -/
theorem ht_del_ht_set_round_trip (sg : Bool) (t : ht_t) (k v : CString)
    (h : ht_get sg t k = none) :
    ((∀ i, (ht_del sg (ht_set sg t k v) k).entries i = t.entries i) ∧
        ht_dump (ht_del sg (ht_set sg t k v) k) = ht_dump t ∧
        ht_get sg (ht_del sg (ht_set sg t k v) k) k = none) ∧
      (ht_get sg (ht_del sg (ht_set sg ht_create str_a str_1) str_a) str_a = none ∧
        ht_dump (ht_del sg (ht_set sg ht_create str_a str_1) str_a) = []) := by
  constructor
  · rw [ht_del_ht_set_of_absent sg t k v h]
    exact ⟨fun _ => rfl, rfl, h⟩
  · have h0 : ht_get sg ht_create str_a = none := by rw [ht_get_eq_loop]; rfl
    rw [ht_del_ht_set_of_absent sg ht_create str_a str_1 h0]
    exact ⟨h0, ht_dump_of_empty ht_create (fun _ => rfl)⟩

theorem ht_del_ht_set_round_trip_witness :
    ht_get true (ht_set true ht_create str_a str_1) str_d = none ∧
      (((∀ i, (ht_del true (ht_set true (ht_set true ht_create str_a str_1) str_d str_2)
            str_d).entries i = (ht_set true ht_create str_a str_1).entries i) ∧
          ht_dump (ht_del true (ht_set true (ht_set true ht_create str_a str_1) str_d str_2)
            str_d) = ht_dump (ht_set true ht_create str_a str_1) ∧
          ht_get true (ht_del true (ht_set true (ht_set true ht_create str_a str_1) str_d str_2)
            str_d) str_d = none) ∧
        (ht_get true (ht_del true (ht_set true ht_create str_a str_1) str_a) str_a = none ∧
          ht_dump (ht_del true (ht_set true ht_create str_a str_1) str_a) = [])) :=
  ⟨by decide, ht_del_ht_set_round_trip true _ str_d str_2 (by decide)⟩

/-! ## Other keys are left alone -/

theorem ht_get_loop_set_loop_other (k k2 v : CString) (chain : List entry_t) (h : k ≠ k2) :
    ht_get_loop k2 (ht_set_loop k v chain) = ht_get_loop k2 chain := by
  induction chain with
  | nil => simp [ht_set_loop, ht_get_loop, ht_pair, h]
  | cons e c ih =>
    by_cases hk : e.key = k
    · have h2 : e.key ≠ k2 := fun hh => h (hk.symm.trans hh)
      simp [ht_set_loop, ht_get_loop, hk, h]
    · by_cases h2 : e.key = k2
      · simp [ht_set_loop, ht_get_loop, h2, Ne.symm h]
      · simp [ht_set_loop, ht_get_loop, hk, h2, ih]

theorem ht_get_loop_del_loop_other (k k2 : CString) (idx : Nat) (chain : List entry_t)
    (h : k ≠ k2) : ht_get_loop k2 (ht_del_loop k idx chain) = ht_get_loop k2 chain := by
  rw [ht_del_loop_eq_eraseP]
  induction chain with
  | nil => simp
  | cons e c ih =>
    by_cases hk : e.key = k
    · have h2 : e.key ≠ k2 := fun hh => h (hk.symm.trans hh)
      simp [List.eraseP_cons, ht_get_loop, hk, h]
    · by_cases h2 : e.key = k2
      · simp [List.eraseP_cons, ht_get_loop, h2, Ne.symm h]
      · simp only [List.eraseP_cons, hk, decide_False, ht_get_loop, h2, if_false]
        simpa using ih

/-- C17: `ht_set` does not disturb other keys: for distinct keys `k` and `k2`, in the same
bucket or not, `ht_get` of `k2` after `ht_set(t, k, v)` returns what it returned on `t`. -/
theorem ht_get_ht_set_other (sg : Bool) (t : ht_t) (k k2 v : CString) (h : k ≠ k2) :
    ht_get sg (ht_set sg t k v) k2 = ht_get sg t k2 := by
  rw [ht_get_eq_loop, ht_get_eq_loop]
  by_cases hs : slot_of sg k2 = slot_of sg k
  · rw [hs, ht_set_entries_same]
    exact ht_get_loop_set_loop_other k k2 v _ h
  · rw [ht_set_entries_other sg t k v _ hs]

theorem ht_get_ht_set_other_witness :
    str_d ≠ str_a ∧
      ht_get true (ht_set true (ht_set true (ht_set true ht_create str_a str_1) str_d str_2)
        str_d str_1) str_a =
        ht_get true (ht_set true (ht_set true ht_create str_a str_1) str_d str_2) str_a :=
  ⟨by decide, ht_get_ht_set_other true _ str_d str_a str_1 (by decide)⟩

/-- C18: `ht_del` does not disturb other keys: for distinct keys `k` and `k2`, in the same
bucket or not, `ht_get` of `k2` after `ht_del(t, k)` returns what it returned on `t`. -/
theorem ht_get_ht_del_other (sg : Bool) (t : ht_t) (k k2 : CString) (h : k ≠ k2) :
    ht_get sg (ht_del sg t k) k2 = ht_get sg t k2 := by
  rw [ht_get_eq_loop, ht_get_eq_loop]
  by_cases hs : slot_of sg k2 = slot_of sg k
  · rw [hs, ht_del_entries_same]
    exact ht_get_loop_del_loop_other k k2 0 _ h
  · rw [ht_del_entries_other sg t k _ hs]

theorem ht_get_ht_del_other_witness :
    str_a ≠ str_d ∧
      ht_get true (ht_del true (ht_set true (ht_set true ht_create str_a str_1) str_d str_2)
        str_a) str_d =
        ht_get true (ht_set true (ht_set true ht_create str_a str_1) str_d str_2) str_d :=
  ⟨by decide, ht_get_ht_del_other true _ str_a str_d (by decide)⟩

/-- C19: bucket placement is an invariant: in every table reachable from `ht_create` by
`ht_set` and `ht_del` calls, each node in the chain of slot `i` has a key that hashes to
`i`, and so no key occurs in two different slots. -/
theorem bucket_placement_invariant (sg : Bool) (t : ht_t) (h : Reachable sg t) :
    (∀ i : Fin TABLE_SIZE, ∀ e ∈ t.entries i, hash sg e.key = i.val) ∧
      (∀ i j : Fin TABLE_SIZE, ∀ e1 ∈ t.entries i, ∀ e2 ∈ t.entries j,
        e1.key = e2.key → i = j) := by
  have hw := reachable_well_placed sg t h
  constructor
  · intro i e he
    exact congrArg Fin.val (hw i e he)
  · intro i j e1 h1 e2 h2 hk
    rw [← hw i e1 h1, ← hw j e2 h2, hk]

theorem bucket_placement_invariant_witness :
    Reachable true (ht_del true (ht_set true (ht_set true ht_create str_a str_1) str_b str_2)
        str_d) ∧
      ((∀ i : Fin TABLE_SIZE,
          ∀ e ∈ (ht_del true (ht_set true (ht_set true ht_create str_a str_1) str_b str_2)
            str_d).entries i, hash true e.key = i.val) ∧
        (∀ i j : Fin TABLE_SIZE,
          ∀ e1 ∈ (ht_del true (ht_set true (ht_set true ht_create str_a str_1) str_b str_2)
            str_d).entries i,
          ∀ e2 ∈ (ht_del true (ht_set true (ht_set true ht_create str_a str_1) str_b str_2)
            str_d).entries j, e1.key = e2.key → i = j)) :=
  ⟨Reachable.del _ _ (Reachable.set _ _ _ (Reachable.set _ _ _ Reachable.create)),
    bucket_placement_invariant true _
      (Reachable.del _ _ (Reachable.set _ _ _ (Reachable.set _ _ _ Reachable.create)))⟩

/-! ## The delete loop as a list erasure -/

theorem ht_del_loop_eq_erase_first_match (key : CString) (idx : Nat) (chain : List entry_t) :
    ht_del_loop key idx chain = erase_first_match key chain := by
  induction chain generalizing idx with
  | nil => simp [ht_del_loop, erase_first_match]
  | cons e c ih =>
    by_cases h : e.key = key
    · cases c <;> by_cases hi : idx = 0 <;> simp [ht_del_loop, erase_first_match, h, hi]
    · simp [ht_del_loop, erase_first_match, h, ih]

theorem erase_first_match_split (key : CString) (pre post : List entry_t) (e : entry_t)
    (hpre : ∀ x ∈ pre, x.key ≠ key) (he : e.key = key) :
    erase_first_match key (pre ++ e :: post) = pre ++ post := by
  induction pre with
  | nil => simp [erase_first_match, he]
  | cons x pre ih =>
    have hx : x.key ≠ key := hpre x (List.mem_cons_self _ _)
    have hrest : ∀ y ∈ pre, y.key ≠ key := fun y hy => hpre y (List.mem_cons_of_mem _ hy)
    simp [erase_first_match, hx, ih hrest]

theorem erase_first_match_of_absent (key : CString) (chain : List entry_t)
    (h : ∀ x ∈ chain, x.key ≠ key) : erase_first_match key chain = chain := by
  induction chain with
  | nil => rfl
  | cons x c ih =>
    have hx : x.key ≠ key := h x (List.mem_cons_self _ _)
    have hrest : ∀ y ∈ c, y.key ≠ key := fun y hy => h y (List.mem_cons_of_mem _ hy)
    simp [erase_first_match, hx, ih hrest]

/-- C16: the four cases of `ht_del` amount to erasing the first match from a list: at every
position of the chain the loop yields the chain with its first node of key `k` removed, so
after `ht_del(t, k)` the chain of slot `hash(k)` is the old chain without that node (the
nodes before and after it kept, in order; the old chain when no node matches), and the
chains of all other slots are unchanged. -/
theorem ht_del_eq_erase_first_match (sg : Bool) (t : ht_t) (k : CString) :
    (∀ idx chain, ht_del_loop k idx chain = erase_first_match k chain) ∧
      (ht_del sg t k).entries (slot_of sg k) =
        erase_first_match k (t.entries (slot_of sg k)) ∧
      (∀ pre e post, t.entries (slot_of sg k) = pre ++ e :: post →
        (∀ x ∈ pre, x.key ≠ k) → e.key = k →
        (ht_del sg t k).entries (slot_of sg k) = pre ++ post) ∧
      ((∀ x ∈ t.entries (slot_of sg k), x.key ≠ k) →
        (ht_del sg t k).entries (slot_of sg k) = t.entries (slot_of sg k)) ∧
      (∀ i, i ≠ slot_of sg k → (ht_del sg t k).entries i = t.entries i) := by
  have hs : (ht_del sg t k).entries (slot_of sg k) =
      erase_first_match k (t.entries (slot_of sg k)) := by
    rw [ht_del_entries_same, ht_del_loop_eq_erase_first_match]
  refine ⟨ht_del_loop_eq_erase_first_match k, hs, ?_, ?_, ?_⟩
  · intro pre e post hc hpre he
    rw [hs, hc]
    exact erase_first_match_split k pre post e hpre he
  · intro hn
    rw [hs]
    exact erase_first_match_of_absent k _ hn
  · intro i hi
    exact ht_del_entries_other sg t k i hi

theorem ht_del_eq_erase_first_match_witness :
    ((ht_set_all true ht_create [(str_a, str_1), (str_d, str_2), (str_g, str_1)]).entries
        (slot_of true str_d) =
        [ht_pair str_a str_1] ++ ht_pair str_d str_2 :: [ht_pair str_g str_1]) ∧
      (∀ x ∈ [ht_pair str_a str_1], x.key ≠ str_d) ∧ (ht_pair str_d str_2).key = str_d ∧
      (ht_del true (ht_set_all true ht_create [(str_a, str_1), (str_d, str_2), (str_g, str_1)])
        str_d).entries (slot_of true str_d) = [ht_pair str_a str_1] ++ [ht_pair str_g str_1] :=
  ⟨by decide, by decide, by decide,
    (ht_del_eq_erase_first_match true
      (ht_set_all true ht_create [(str_a, str_1), (str_d, str_2), (str_g, str_1)])
      str_d).2.2.1 [ht_pair str_a str_1] (ht_pair str_d str_2) [ht_pair str_g str_1]
      (by decide) (by decide) (by decide)⟩

/-! ## Colliding keys -/

theorem slot_of_eq_of_hash_eq (sg : Bool) (k1 k2 : CString) (h : hash sg k1 = hash sg k2) :
    slot_of sg k1 = slot_of sg k2 :=
  Fin.ext h

theorem three_inserts_entries (sg : Bool) (A B C va vb vc : CString)
    (hAB : A ≠ B) (hAC : A ≠ C) (hBC : B ≠ C)
    (h1 : hash sg A = hash sg B) (h2 : hash sg B = hash sg C) :
    (ht_set sg (ht_set sg (ht_set sg ht_create A va) B vb) C vc).entries (slot_of sg A) =
      [ht_pair A va, ht_pair B vb, ht_pair C vc] := by
  have hnd : ([(A, va), (B, vb), (C, vc)].map Prod.fst).Nodup := by
    simp [hAB, hAC, hBC]
  have hB : slot_of sg B = slot_of sg A := (slot_of_eq_of_hash_eq sg A B h1).symm
  have hC : slot_of sg C = slot_of sg A := (slot_of_eq_of_hash_eq sg B C h2).symm.trans hB
  have h := ht_set_all_entries sg [(A, va), (B, vb), (C, vc)] hnd (slot_of sg A)
  simpa [ht_set_all, hB, hC] using h

theorem two_inserts_entries (sg : Bool) (k1 k2 v1 v2 : CString) (hne : k1 ≠ k2)
    (h : hash sg k1 = hash sg k2) (i : Fin TABLE_SIZE) :
    (ht_set sg (ht_set sg ht_create k1 v1) k2 v2).entries i =
      if slot_of sg k1 = i then [ht_pair k1 v1, ht_pair k2 v2] else [] := by
  have hnd : ([(k1, v1), (k2, v2)].map Prod.fst).Nodup := by
    simp [hne]
  have h2 : slot_of sg k2 = slot_of sg k1 := (slot_of_eq_of_hash_eq sg k1 k2 h).symm
  have he := ht_set_all_entries sg [(k1, v1), (k2, v2)] hnd i
  by_cases hi : slot_of sg k1 = i
  · simpa [ht_set_all, h2, hi] using he
  · simpa [ht_set_all, h2, hi] using he

/-- C13: delete in the middle of a chain: for pairwise distinct keys `A`, `B`, `C` with equal
hash, inserting them in this order into the table of `ht_create` forms the chain
`A, B, C`; deleting `B` leaves the chain `A, C` with their values, `ht_get` still returns
the values of `A` and `C`, and `ht_get` of `B` returns `NULL`. -/
theorem ht_del_middle (sg : Bool) (A B C va vb vc : CString)
    (hAB : A ≠ B) (hAC : A ≠ C) (hBC : B ≠ C)
    (h1 : hash sg A = hash sg B) (h2 : hash sg B = hash sg C) :
    (ht_set sg (ht_set sg (ht_set sg ht_create A va) B vb) C vc).entries (slot_of sg A) =
        [ht_pair A va, ht_pair B vb, ht_pair C vc] ∧
      (ht_del sg (ht_set sg (ht_set sg (ht_set sg ht_create A va) B vb) C vc) B).entries
          (slot_of sg A) = [ht_pair A va, ht_pair C vc] ∧
      ht_get sg (ht_del sg (ht_set sg (ht_set sg (ht_set sg ht_create A va) B vb) C vc) B) A
        = some va ∧
      ht_get sg (ht_del sg (ht_set sg (ht_set sg (ht_set sg ht_create A va) B vb) C vc) B) C
        = some vc ∧
      ht_get sg (ht_del sg (ht_set sg (ht_set sg (ht_set sg ht_create A va) B vb) C vc) B) B
        = none := by
  have hB : slot_of sg B = slot_of sg A := (slot_of_eq_of_hash_eq sg A B h1).symm
  have hC : slot_of sg C = slot_of sg A := (slot_of_eq_of_hash_eq sg B C h2).symm.trans hB
  have hent := three_inserts_entries sg A B C va vb vc hAB hAC hBC h1 h2
  have hdel : (ht_del sg (ht_set sg (ht_set sg (ht_set sg ht_create A va) B vb) C vc)
      B).entries (slot_of sg A) = [ht_pair A va, ht_pair C vc] := by
    rw [← hB, ht_del_entries_same, hB, hent]
    simp [ht_del_loop, ht_pair, hAB]
  refine ⟨hent, hdel, ?_, ?_, ?_⟩
  · rw [ht_get_eq_loop, hdel]
    simp [ht_get_loop, ht_pair]
  · rw [ht_get_eq_loop, hC, hdel]
    simp [ht_get_loop, ht_pair, hAC]
  · rw [ht_get_eq_loop, hB, hdel]
    simp [ht_get_loop, ht_pair, hAB, Ne.symm hBC]

theorem ht_del_middle_witness :
    (str_a ≠ str_d ∧ str_a ≠ str_g ∧ str_d ≠ str_g ∧
        hash true str_a = hash true str_d ∧ hash true str_d = hash true str_g ∧
        hash true str_a = 1) ∧
      ((ht_set true (ht_set true (ht_set true ht_create str_a str_1) str_d str_2)
          str_g str_1).entries (slot_of true str_a) =
          [ht_pair str_a str_1, ht_pair str_d str_2, ht_pair str_g str_1] ∧
        (ht_del true (ht_set true (ht_set true (ht_set true ht_create str_a str_1) str_d str_2)
          str_g str_1) str_d).entries (slot_of true str_a) =
          [ht_pair str_a str_1, ht_pair str_g str_1] ∧
        ht_get true (ht_del true (ht_set true (ht_set true (ht_set true ht_create str_a str_1)
          str_d str_2) str_g str_1) str_d) str_a = some str_1 ∧
        ht_get true (ht_del true (ht_set true (ht_set true (ht_set true ht_create str_a str_1)
          str_d str_2) str_g str_1) str_d) str_g = some str_1 ∧
        ht_get true (ht_del true (ht_set true (ht_set true (ht_set true ht_create str_a str_1)
          str_d str_2) str_g str_1) str_d) str_d = none) :=
  ⟨by decide,
    ht_del_middle true str_a str_d str_g str_1 str_2 str_1
      (by decide) (by decide) (by decide) (by decide) (by decide)⟩

theorem two_inserts_del_entries (sg : Bool) (k1 k2 v1 v2 : CString) (hne : k1 ≠ k2)
    (h : hash sg k1 = hash sg k2) (i : Fin TABLE_SIZE) :
    (ht_del sg (ht_set sg (ht_set sg ht_create k1 v1) k2 v2) k1).entries i =
      if slot_of sg k1 = i then [ht_pair k2 v2] else [] := by
  by_cases hi : i = slot_of sg k1
  · subst hi
    rw [ht_del_entries_same, two_inserts_entries sg k1 k2 v1 v2 hne h]
    simp [ht_del_loop, ht_pair]
  · rw [ht_del_entries_other sg _ k1 i hi, two_inserts_entries sg k1 k2 v1 v2 hne h]
    simp [Ne.symm hi]

/-- C14: delete at the head of a chain: for distinct keys `k1`, `k2` with equal hash, after
inserting `(k1, v1)` then `(k2, v2)` into the table of `ht_create` both keys are found by
`ht_get`; after deleting `k1`, `ht_get` of `k2` still returns `v2`, `ht_get` of `k1` returns
`NULL`, and `ht_dump` prints the single item `(k2, v2)`, in the slot of its hash. -/
theorem ht_del_head (sg : Bool) (k1 k2 v1 v2 : CString) (hne : k1 ≠ k2)
    (h : hash sg k1 = hash sg k2) :
    (ht_get sg (ht_set sg (ht_set sg ht_create k1 v1) k2 v2) k1 = some v1 ∧
        ht_get sg (ht_set sg (ht_set sg ht_create k1 v1) k2 v2) k2 = some v2) ∧
      ht_get sg (ht_del sg (ht_set sg (ht_set sg ht_create k1 v1) k2 v2) k1) k2 = some v2 ∧
      ht_get sg (ht_del sg (ht_set sg (ht_set sg ht_create k1 v1) k2 v2) k1) k1 = none ∧
      ht_dump (ht_del sg (ht_set sg (ht_set sg ht_create k1 v1) k2 v2) k1) =
        [(hash sg k2, [(k2, v2)])] ∧
      dump_pairs (ht_del sg (ht_set sg (ht_set sg ht_create k1 v1) k2 v2) k1) = [(k2, v2)] := by
  have h2 : slot_of sg k2 = slot_of sg k1 := (slot_of_eq_of_hash_eq sg k1 k2 h).symm
  have hent := two_inserts_entries sg k1 k2 v1 v2 hne h
  have hdel := two_inserts_del_entries sg k1 k2 v1 v2 hne h
  have hdump : ht_dump (ht_del sg (ht_set sg (ht_set sg ht_create k1 v1) k2 v2) k1) =
      [(hash sg k2, [(k2, v2)])] := by
    rw [ht_dump_of_single_slot _ (slot_of sg k1), ht_dump_slot_eq, hdel]
    · simp [ht_pair, slot_of, h]
    · intro i hi
      rw [hdel]
      simp [Ne.symm hi]
  refine ⟨⟨?_, ?_⟩, ?_, ?_, hdump, ?_⟩
  · rw [ht_get_eq_loop, hent]
    simp [ht_get_loop, ht_pair]
  · rw [ht_get_eq_loop, h2, hent]
    simp [ht_get_loop, ht_pair, hne]
  · rw [ht_get_eq_loop, h2, hdel]
    simp [ht_get_loop, ht_pair]
  · rw [ht_get_eq_loop, hdel]
    simp [ht_get_loop, ht_pair, Ne.symm hne]
  · unfold dump_pairs
    rw [hdump]
    rfl

theorem ht_del_head_witness :
    (str_a ≠ str_d ∧ hash true str_a = hash true str_d) ∧
      ((ht_get true (ht_set true (ht_set true ht_create str_a str_1) str_d str_2) str_a
            = some str_1 ∧
          ht_get true (ht_set true (ht_set true ht_create str_a str_1) str_d str_2) str_d
            = some str_2) ∧
        ht_get true (ht_del true (ht_set true (ht_set true ht_create str_a str_1) str_d str_2)
          str_a) str_d = some str_2 ∧
        ht_get true (ht_del true (ht_set true (ht_set true ht_create str_a str_1) str_d str_2)
          str_a) str_a = none ∧
        ht_dump (ht_del true (ht_set true (ht_set true ht_create str_a str_1) str_d str_2)
          str_a) = [(hash true str_d, [(str_d, str_2)])] ∧
        dump_pairs (ht_del true (ht_set true (ht_set true ht_create str_a str_1) str_d str_2)
          str_a) = [(str_d, str_2)]) :=
  ⟨by decide, ht_del_head true str_a str_d str_1 str_2 (by decide) (by decide)⟩

/-- C15: with three buckets, `hash("name1") = 1`, `hash("name2") = 2` and
`hash("name3") = 0`, and after inserting `("name1", "em")`, `("name2", "lmao")` and
`("name3", "pizza")` into the table of `ht_create`, `ht_dump` prints exactly these three
items, each in the slot of its hash: slot 0 holds `name3=pizza`, slot 1 holds `name1=em`
and slot 2 holds `name2=lmao`, in this order. -/
theorem ht_dump_name_scenario (sg : Bool) :
    TABLE_SIZE = 3 ∧
      (hash sg str_name1 = 1 ∧ hash sg str_name2 = 2 ∧ hash sg str_name3 = 0) ∧
      ht_dump (ht_set sg (ht_set sg (ht_set sg ht_create str_name1 str_em)
          str_name2 str_lmao) str_name3 str_pizza) =
        [(0, [(str_name3, str_pizza)]), (1, [(str_name1, str_em)]),
          (2, [(str_name2, str_lmao)])] ∧
      dump_pairs (ht_set sg (ht_set sg (ht_set sg ht_create str_name1 str_em)
          str_name2 str_lmao) str_name3 str_pizza) =
        [(str_name3, str_pizza), (str_name1, str_em), (str_name2, str_lmao)] := by
  cases sg <;> decide

/-! ## Short ASCII keys -/

theorem hash_unbounded_cons (b : Nat) (l : List Nat) (a : Nat) :
    hash_unbounded (b :: l) a = hash_unbounded l (a * 37 + b) := rfl

theorem step_bound (a b j : Nat) (ha : a + 4 ≤ 4 * 37 ^ j) (hb : b ≤ 127) :
    a * 37 + b + 4 ≤ 4 * 37 ^ (j + 1) := by
  have hp : 37 ^ (j + 1) = 37 ^ j * 37 := pow_succ 37 j
  rw [hp]
  generalize 37 ^ j = P at ha
  omega

theorem foldl_ref_step_eq_unbounded (l : List Nat) (a j : Nat) (ha : a + 4 ≤ 4 * 37 ^ j)
    (hj : j + l.length ≤ 11) (hb : ∀ b ∈ l, b ≤ 127) :
    l.foldl ref_step a = hash_unbounded l a := by
  induction l generalizing a j with
  | nil => rfl
  | cons b l ih =>
    have hb0 : b ≤ 127 := hb b (List.mem_cons_self _ _)
    have hl : ∀ x ∈ l, x ≤ 127 := fun x hx => hb x (List.mem_cons_of_mem _ hx)
    have hstep := step_bound a b j ha hb0
    have hlen : j + 1 + l.length ≤ 11 := by
      simp only [List.length_cons] at hj
      omega
    have hpow : 37 ^ (j + 1) ≤ 37 ^ 11 :=
      Nat.pow_le_pow_right (by norm_num) (by omega)
    have hlt : a * 37 + b < 2 ^ 64 := by
      have h11 : 4 * 37 ^ 11 < 2 ^ 64 := by norm_num
      have : 4 * 37 ^ (j + 1) ≤ 4 * 37 ^ 11 := Nat.mul_le_mul_left 4 hpow
      omega
    have hr : ref_step a b = a * 37 + b := Nat.mod_eq_of_lt hlt
    rw [List.foldl_cons, hr, hash_unbounded_cons]
    exact ih (a * 37 + b) (j + 1) hstep hlen hl

theorem hash_unbounded_mod_three (l : List Nat) (a : Nat) :
    hash_unbounded l a % 3 = (a + l.sum) % 3 := by
  induction l generalizing a with
  | nil => simp [hash_unbounded]
  | cons b l ih =>
    rw [hash_unbounded_cons, ih, List.sum_cons]
    omega

theorem hash_of_short_ascii (sg : Bool) (key : CString) (hlen : key.bytes.length ≤ 11)
    (hb : ∀ b ∈ key.bytes, b ≤ 127) :
    key.bytes.foldl (hash_step sg) 0 = hash_unbounded key.bytes 0 ∧
      hash sg key = key.bytes.sum % 3 := by
  have hacc : key.bytes.foldl (hash_step sg) 0 = hash_unbounded key.bytes 0 := by
    rw [foldl_hash_step_eq sg key.bytes 0 (Or.inr hb)]
    exact foldl_ref_step_eq_unbounded key.bytes 0 0 (by norm_num) (by omega) hb
  refine ⟨hacc, ?_⟩
  have h32 : key.bytes.length < 2 ^ 32 := lt_of_le_of_lt hlen (by norm_num)
  have h1 : key.bytes.length % UINT_MOD = key.bytes.length := Nat.mod_eq_of_lt h32
  have h3 : hash_unbounded key.bytes 0 % TABLE_SIZE = key.bytes.sum % 3 := by
    show hash_unbounded key.bytes 0 % 3 = key.bytes.sum % 3
    rw [hash_unbounded_mod_three, Nat.zero_add]
  rw [hash_unfold, h1, List.take_length, hacc, h3]
  exact Nat.mod_eq_of_lt (lt_trans (Nat.mod_lt _ (by norm_num)) (by norm_num [UINT_MOD]))

/-- C20: for every key of at most 11 bytes, all of them in `1..127`, the 64-bit accumulator
of `hash` never wraps and, 37 being 1 modulo 3, `hash(key)` is the sum of the byte values
modulo 3; hence two such keys that are permutations of each other land in the same
bucket. -/
theorem hash_eq_byte_sum (sg : Bool) (key : CString) (hlen : key.bytes.length ≤ 11)
    (hb : ∀ b ∈ key.bytes, b ≤ 127) :
    37 % TABLE_SIZE = 1 ∧
      key.bytes.foldl (hash_step sg) 0 = hash_unbounded key.bytes 0 ∧
      hash sg key = key.bytes.sum % 3 ∧
      (∀ key2 : CString, key2.bytes.Perm key.bytes →
        hash sg key2 = hash sg key ∧ slot_of sg key2 = slot_of sg key) := by
  have h := hash_of_short_ascii sg key hlen hb
  refine ⟨rfl, h.1, h.2, ?_⟩
  intro key2 hp
  have hlen2 : key2.bytes.length ≤ 11 := by rw [hp.length_eq]; exact hlen
  have hb2 : ∀ b ∈ key2.bytes, b ≤ 127 := fun b hb2 => hb b (hp.mem_iff.1 hb2)
  have he : hash sg key2 = hash sg key := by
    rw [(hash_of_short_ascii sg key2 hlen2 hb2).2, h.2, hp.sum_eq]
  exact ⟨he, Fin.ext he⟩

theorem hash_eq_byte_sum_witness :
    (str_name1.bytes.length ≤ 11 ∧ ∀ b ∈ str_name1.bytes, b ≤ 127) ∧
      (37 % TABLE_SIZE = 1 ∧
        str_name1.bytes.foldl (hash_step true) 0 = hash_unbounded str_name1.bytes 0 ∧
        hash true str_name1 = str_name1.bytes.sum % 3 ∧
        (∀ key2 : CString, key2.bytes.Perm str_name1.bytes →
          hash true key2 = hash true str_name1 ∧ slot_of true key2 = slot_of true str_name1)) :=
  ⟨⟨by decide, by decide⟩, hash_eq_byte_sum true str_name1 (by decide) (by decide)⟩

/-! ## The `value` argument read after `free` -/

theorem ht_set_call_loop_of_apart (key : CString) (value : value_arg) (content : CString)
    (chain : List entry_t) (h : points_at_match key value = false) :
    ht_set_call_loop key value content chain = some (ht_set_loop key content chain) := by
  induction chain with
  | nil => rfl
  | cons e c ih =>
    by_cases hk : e.key = key
    · simp [ht_set_call_loop, ht_set_loop, hk, h]
    · simp [ht_set_call_loop, ht_set_loop, hk, ih]

theorem ht_set_call_loop_of_match (key : CString) (value : value_arg) (content : CString)
    (chain : List entry_t) (h : points_at_match key value = true)
    (hk : ht_get_loop key chain ≠ none) :
    ht_set_call_loop key value content chain = none := by
  induction chain with
  | nil => simp [ht_get_loop] at hk
  | cons e c ih =>
    by_cases he : e.key = key
    · simp [ht_set_call_loop, he, h]
    · simp only [ht_get_loop, he, if_false] at hk
      simp [ht_set_call_loop, he, ih hk]

theorem ht_set_call_of_apart (sg : Bool) (t : ht_t) (key : CString) (value : value_arg)
    (content : CString) (hc : arg_string sg t value = some content)
    (h : points_at_match key value = false) :
    ht_set_call sg t key value = some (ht_set sg t key content) := by
  unfold ht_set_call
  rw [hc]
  simp only []
  rw [ht_set_eq_loop]
  split <;> rename_i hs
  · rw [hs]; rfl
  · rw [ht_set_call_loop_of_apart key value content _ h, hs]
    rfl

theorem ht_set_call_own (sg : Bool) (t : ht_t) (key v : CString) :
    ht_set_call sg t key (value_arg.own v) = some (ht_set sg t key v) :=
  ht_set_call_of_apart sg t key (value_arg.own v) v rfl rfl

theorem ht_set_call_stored_other (sg : Bool) (t : ht_t) (key k v : CString) (hne : k ≠ key)
    (hv : ht_get sg t k = some v) :
    ht_set_call sg t key (value_arg.stored k) = some (ht_set sg t key v) :=
  ht_set_call_of_apart sg t key (value_arg.stored k) v hv (by simp [points_at_match, hne])

theorem ht_set_call_stored_same (sg : Bool) (t : ht_t) (key v : CString)
    (hv : ht_get sg t key = some v) :
    ht_set_call sg t key (value_arg.stored key) = none := by
  have hloop : ht_get_loop key (t.entries (slot_of sg key)) ≠ none := by
    rw [← ht_get_eq_loop, hv]
    exact Option.some_ne_none v
  unfold ht_set_call
  have hc : arg_string sg t (value_arg.stored key) = some v := hv
  rw [hc]
  simp only []
  split <;> rename_i hs
  · rw [hs] at hloop
    exact absurd rfl hloop
  · rw [← hs, ht_set_call_loop_of_match key _ v _ (by simp [points_at_match]) hloop]
    rfl

theorem ht_set_call_defined (sg : Bool) (t u : ht_t) (key : CString) (value : value_arg)
    (h : ht_set_call sg t key value = some u) :
    ∃ content, arg_string sg t value = some content ∧ u = ht_set sg t key content := by
  cases hc : arg_string sg t value with
  | none =>
    unfold ht_set_call at h
    rw [hc] at h
    exact absurd h (by simp)
  | some content =>
    refine ⟨content, rfl, ?_⟩
    cases hp : points_at_match key value with
    | false =>
      rw [ht_set_call_of_apart sg t key value content hc hp] at h
      exact (Option.some.inj h).symm
    | true =>
      cases value with
      | own s => simp [points_at_match] at hp
      | stored k =>
        have hk : k = key := by simpa [points_at_match] using hp
        subst hk
        rw [ht_set_call_stored_same sg t k content hc] at h
        exact absurd h (by simp)

theorem reachable_ht_set_call (sg : Bool) (t u : ht_t) (key : CString) (value : value_arg)
    (ht : Reachable sg t) (h : ht_set_call sg t key value = some u) : Reachable sg u := by
  obtain ⟨content, _, hu⟩ := ht_set_call_defined sg t u key value h
  rw [hu]
  exact Reachable.set t key content ht

/-- C1, a defect of the code: after `ht_set(ht, "a", "1")` the call
`ht_set(ht, "a", ht_get(ht, "a"))` passes the value `"1"` for the key `"a"`, but the update
path frees the stored value before it reads `value`: the call reads freed storage and has
no defined result, so nothing makes `ht_get(ht, "a")` return `"1"` afterwards.  The same
string passed from storage of the caller is stored and returned. -/
theorem ht_set_stored_value_same_key :
    arg_string true (ht_set true ht_create str_a str_1) (value_arg.stored str_a)
        = some str_1 ∧
      ht_set_call true (ht_set true ht_create str_a str_1) str_a (value_arg.stored str_a)
        = none ∧
      (∃ u, ht_set_call true (ht_set true ht_create str_a str_1) str_a (value_arg.own str_1)
          = some u ∧ ht_get true u str_a = some str_1) := by
  refine ⟨by decide, ht_set_call_stored_same true _ str_a str_1 (by decide), ?_⟩
  exact ⟨_, ht_set_call_own true _ str_a str_1, by decide⟩

/-- C3, a defect of the code: on the table holding `("a", "1")` and `("d", "2")` the key
`"d"` is found, and the call `ht_set(ht, "d", ht_get(ht, "d"))` takes the update path with
a `value` that is the stored value itself: it is freed before it is read, the call has no
defined result, and `ht_get(ht, "d")` is not made to return the value passed. -/
theorem ht_set_existing_key_stored_value :
    ht_get true (ht_set true (ht_set true ht_create str_a str_1) str_d str_2) str_d
        = some str_2 ∧
      arg_string true (ht_set true (ht_set true ht_create str_a str_1) str_d str_2)
        (value_arg.stored str_d) = some str_2 ∧
      ht_set_call true (ht_set true (ht_set true ht_create str_a str_1) str_d str_2) str_d
        (value_arg.stored str_d) = none ∧
      ht_set_call true (ht_set true (ht_set true ht_create str_a str_1) str_d str_2) str_d
        (value_arg.stored str_a) =
        some (ht_set true (ht_set true (ht_set true ht_create str_a str_1) str_d str_2)
          str_d str_1) := by
  refine ⟨by decide, by decide, ht_set_call_stored_same true _ str_d str_2 (by decide), ?_⟩
  exact ht_set_call_stored_other true _ str_d str_a str_1 (by decide) (by decide)

/-- C4, a defect of the code: the table holding `("name1", "em")` is reachable, and the call
`ht_set(ht, "name1", ht_get(ht, "name1"))` on it reads its `value` after the stored value
was freed: it has no defined result, so `ht_dump` is not made to print `name1=em`, the
value passed. -/
theorem ht_dump_after_ht_set_stored_value :
    Reachable true (ht_set true ht_create str_name1 str_em) ∧
      arg_string true (ht_set true ht_create str_name1 str_em) (value_arg.stored str_name1)
        = some str_em ∧
      ht_set_call true (ht_set true ht_create str_name1 str_em) str_name1
        (value_arg.stored str_name1) = none ∧
      dump_pairs (ht_set true ht_create str_name1 str_em) = [(str_name1, str_em)] := by
  refine ⟨Reachable.set _ _ _ Reachable.create, by decide,
    ht_set_call_stored_same true _ str_name1 str_em (by decide), by decide⟩

end HashTable
